import Mathlib

/-!
# AsciiVision — verification of the conversion core

Shallow embedding of the two conversion pipelines of `asciivision.py`
(`AsciiVision.ascii_to_image`, lines 316–377, and
`AsciiVision.image_to_ascii`, lines 379–415) together with proofs of the
behavioural properties stated in the specification.

Text is modelled as `List Char`; a multi-line document is a `List Char`
containing `'\n'` separators, exactly as the Python code manipulates a
single string.  External primitives the core merely calls (Pillow's font
loading, glyph rasterisation, colour resolution, image resampling, file
saving) are parameters of the embedding; every branch and arithmetic
operation of the repository's own code is translated directly.
-/

set_option autoImplicit false

namespace AsciiVision

/-! ## Python string primitives

`str.split()` (whitespace split, empty words dropped), `str.rstrip()`,
`str.split('\n')` and `'\n'.join` as used by the source. `isPyWs` covers the
ASCII whitespace characters of Python's `str.isspace` (the source documents
are ASCII art; the additional Unicode space code points Python also strips
are not modelled). -/

/-- ASCII whitespace, as recognised by Python's `str.split()` / `str.rstrip()`. -/
def isPyWs (c : Char) : Bool :=
  c = ' ' || c = '\t' || c = '\n' || c = '\r' || c = '\x0b' || c = '\x0c'

/-- Python `s.rstrip()`: drop trailing whitespace. -/
def rstrip (l : List Char) : List Char :=
  (l.reverse.dropWhile isPyWs).reverse

/-- Python `s.split('\n')`: split at every `'\n'`, keeping empty pieces
(`List.splitOn` has exactly these semantics). -/
def splitLines (l : List Char) : List (List Char) :=
  l.splitOn '\n'

/-- Python `'\n'.join(lines)`. -/
def joinLines (ls : List (List Char)) : List Char :=
  List.intercalate ['\n'] ls

/-- Accumulator loop of Python `s.split()`: `cur` is the word being read,
in reverse order. -/
def splitWsAux : List Char → List Char → List (List Char)
  | [], cur => if cur.isEmpty then [] else [cur.reverse]
  | c :: cs, cur =>
    if isPyWs c then
      if cur.isEmpty then splitWsAux cs [] else cur.reverse :: splitWsAux cs []
    else splitWsAux cs (c :: cur)

/-- Python `s.split()` with no argument: split on runs of whitespace,
never producing empty words. -/
def splitWs (l : List Char) : List (List Char) :=
  splitWsAux l []

/-! ## Wrap engine (`ascii_to_image`, lines 324–342)

The source iterates over `ascii_text.split('\n')`; a line of length
`≤ wrap_width` is kept verbatim, a longer line is split into words and
greedily repacked.  `current_line` always carries a trailing `' '`
(`current_line += word + " "`), which `rstrip` removes on flush. -/

/-- The inner `for word in words` loop: `cur` is Python's `current_line`,
the returned list collects the lines the loop appends (flushes happen in
order, followed by the final `if current_line:` flush). -/
def packLoop (width : Nat) : List (List Char) → List Char → List (List Char)
  | [], cur => if cur.isEmpty then [] else [rstrip cur]
  | w :: ws, cur =>
    if (cur ++ w).length ≤ width then
      packLoop width ws (cur ++ w ++ [' '])
    else
      (if cur.isEmpty then [] else [rstrip cur]) ++ packLoop width ws (w ++ [' '])

/-- Proof-layer view of Python's `current_line` accumulator: after packing
the words `g`, `current_line` is their concatenation with one `' '` after
each word. -/
def flatCur (g : List (List Char)) : List Char :=
  g.flatMap (fun w => w ++ [' '])

/-- Wrapping of one input line (body of `for line in ascii_text.split('\n')`). -/
def wrapLine (width : Nat) (line : List Char) : List (List Char) :=
  if line.length ≤ width then [line]
  else packLoop width (splitWs line) []

/-- The accumulated `lines` list after the loop over all input lines. -/
def wrapLinesOf (width : Nat) (text : List Char) : List (List Char) :=
  (splitLines text).flatMap (wrapLine width)

/-- The whole `if wrap_width > 0:` block: rebind `ascii_text` to the joined
wrapped lines, or leave it untouched when wrapping is disabled. -/
def wrapStep (wrapWidth : Int) (text : List Char) : List Char :=
  if wrapWidth > 0 then joinLines (wrapLinesOf wrapWidth.toNat text)
  else text

/-! ## Quantizer (`image_to_ascii`, lines 379–415)

The function opens the image, converts it to 8-bit grayscale (`'L'`),
resizes it to `width × int(width * (height/width) * 0.55)` and maps each
pixel to a ramp character, appending `'\n'` after every row.  Any exception
(undecodable file, `ZeroDivisionError` on a zero-width image, Pillow's
`ValueError: height and width must be > 0` from `resize` on a non-positive
target size) is caught by the enclosing `try`, printed, and turned into the
return value `""`.  The embedding returns `Except String String`: `.ok s`
is a normal return of `s`; `.error e` is the caught-exception path, whose
Python return value is `""` (`pythonReturn` below recovers it).

External primitives: decoding is an `Except String GrayImage` input
(`Image.open` + `convert('L')`), and the LANCZOS resampling is a parameter
`resample` returning the row-major pixel list of the resized image
(Pillow guarantees its length is `width * height`, stated as a hypothesis
where needed). -/

/-- A decoded 8-bit grayscale image: only its dimensions are inspected by
the repository's own code; pixel data flows through the `resample`
parameter. -/
structure GrayImage where
  width : Nat
  height : Nat
  deriving Repr, DecidableEq

/-- `ascii_chars = "@%#*+=-:. "` (line 383). -/
def asciiChars : List Char := ['@', '%', '#', '*', '+', '=', '-', ':', '.', ' ']

/-- `char_index = int((pixel / 255) * (len(ascii_chars) - 1))` (line 404),
translated to exact integer arithmetic: for every `pixel` in `0..255` the
CPython double computation truncates to exactly `pixel * 9 / 255`
(checked exhaustively over all 256 values). -/
def charIndex (pixel : Nat) : Nat :=
  pixel * (asciiChars.length - 1) / 255

/-- `ascii_chars[char_index]` (line 405).  For 8-bit luminance the index is
always in range; the `getD` default stands in for the `IndexError` Python
would raise on an out-of-range pixel, which cannot occur for `'L'` data. -/
def rampChar (pixel : Nat) : Char :=
  asciiChars.getD (charIndex pixel) ' '

/-- The `for i, pixel in enumerate(pixels)` loop (lines 402–409): emit one
ramp character per pixel and a `'\n'` whenever `(i + 1) % width == 0`. -/
def asciiFromPixels (width : Nat) : Nat → List Nat → List Char
  | _, [] => []
  | i, p :: ps =>
    (if (i + 1) % width = 0 then [rampChar p, '\n'] else [rampChar p])
      ++ asciiFromPixels width (i + 1) ps

/-- `int(width * aspect_ratio * 0.55)` with `aspect_ratio = height/width`
(lines 392–393), in exact arithmetic: `0.55 = 11/20`, and both Python's
`int()` and `Int.tdiv` truncate toward zero.  CPython evaluates the product
in doubles, which can differ from the exact truncation by one when the
exact value `width*h*11/(w*20)` is an integer (e.g. source width 55); at
every input used below the two agree. -/
def quantHeight (img : GrayImage) (width : Int) : Int :=
  Int.tdiv (width * (img.height : Int) * 11) ((img.width : Int) * 20)

/-- `image_to_ascii` (lines 379–415).  `opened` is the outcome of
`Image.open(image_path)` followed by `convert('L')`; `resample img w h` is
the row-major pixel data of `img` LANCZOS-resized to `w × h`.

* a zero-width image raises `ZeroDivisionError` at `image.height / image.width`;
* `image.resize((width, height), ...)` raises `ValueError` unless both
  target sides are ≥ 1 (Pillow's resample size check; Pillow's shortcut for
  a target size equal to the source size can skip this check only for a
  zero-height source, which cannot come from a decoded file and is not
  modelled). -/
def image_to_ascii (resample : GrayImage → Nat → Nat → List Nat)
    (opened : Except String GrayImage) (width : Int) : Except String String :=
  match opened with
  | .error e => .error e
  | .ok image =>
    if image.width = 0 then
      .error "division by zero"
    else
      let height := quantHeight image width
      if width < 1 ∨ height < 1 then
        .error "height and width must be > 0"
      else
        let pixels := resample image width.toNat height.toNat
        .ok (String.mk (asciiFromPixels width.toNat 0 pixels))

/-- The string the Python function actually returns: the result on the
normal path, `""` from the `except` handler (line 415). -/
def pythonReturn (r : Except String String) : String :=
  match r with
  | .ok s => s
  | .error _ => ""

/-- The rows of an emitted ASCII document: every row the quantizer writes is
terminated by `'\n'`, so `split('\n')` ends with one empty piece, dropped
here. -/
def docRows (s : String) : List (List Char) :=
  (splitLines s.data).dropLast

/-- Resampling a uniform image with Pillow's (weight-normalised) LANCZOS
filter yields a uniform image of the requested size; this instance models
it for the all-black source used in the specification's scenario. -/
def resampleUniform (v : Nat) : GrayImage → Nat → Nat → List Nat :=
  fun _ w h => List.replicate (w * h) v

/-! ## Rasterizer (`ascii_to_image`, lines 316–377)

The function wraps the text, loads the requested font (falling back to
Pillow's built-in default on `OSError`), measures `font.getbbox(ascii_text)`,
allocates an `Image.new('RGB', (text_width + 2*padding, text_height +
2*padding), bg_color)` canvas, draws the text at `(padding, padding)` in
`fg_color` and saves the file, returning `True`; any exception is caught,
printed and turned into the return value `False`.

The embedding returns `Except String RasterImage`: `.ok img` is the
successful path (file saved, `True` returned) exposing the composed image;
`.error e` is the caught-exception path (`False` returned).  External
primitives live in `RasterEnv`:

* `loadFont name size` — `ImageFont.truetype`; `none` models the `OSError`
  branch taken for an unknown font;
* `defaultFont` — `ImageFont.load_default()`;
* `getrgb` — Pillow colour-string resolution; `none` models the
  `ValueError` raised for an unresolvable colour name.  `Image.new`
  resolves the background colour before checking the canvas size, and a
  negative size raises `ValueError: Width and height must be >= 0`;
* `coverage font text offset p` — whether drawing `text` with `font` at
  `offset` inks pixel `p` (Pillow's glyph rasterisation);
* `save` — `image.save(output_path)`; `.error` models an encoding/IO
  exception.

The source also computes `max_width` over the wrapped lines (line 346);
the value is never used afterwards (dead code) and is not modelled. -/

/-- A loaded font, seen by the repository's code only through `getbbox`,
which returns `(x0, y0, x1, y1)`. -/
structure Font where
  getbbox : List Char → Int × Int × Int × Int

/-- The composed RGB canvas: dimensions plus the colour of every pixel. -/
structure RasterImage where
  width : Nat
  height : Nat
  pix : Int × Int → Nat × Nat × Nat

/-- External primitives used by `ascii_to_image`. -/
structure RasterEnv where
  loadFont : String → Int → Option Font
  defaultFont : Font
  getrgb : String → Option (Nat × Nat × Nat)
  coverage : Font → List Char → Int × Int → Int × Int → Bool
  save : RasterImage → String → Except String Unit

/-- The `try: font = ImageFont.truetype(...) except OSError: font =
ImageFont.load_default()` block (lines 349–353). -/
def fontOf (env : RasterEnv) (fontName : String) (fontSize : Int) : Font :=
  (env.loadFont fontName fontSize).getD env.defaultFont

/-- Lines 355–373, after the font has been selected: measure, allocate,
draw, save.  `text` is the (already wrapped) `ascii_text`. -/
def renderWith (env : RasterEnv) (font : Font) (text : List Char)
    (outputPath : String) (bgColor fgColor : String) (padding : Int) :
    Except String RasterImage :=
  let (x0, y0, x1, y1) := font.getbbox text
  let textWidth := x1 - x0
  let textHeight := y1 - y0
  let imgWidth := textWidth + padding * 2
  let imgHeight := textHeight + padding * 2
  -- Image.new('RGB', (img_width, img_height), bg_color)
  match env.getrgb bgColor with
  | none => .error ("unknown color specifier: " ++ bgColor)
  | some bg =>
    if imgWidth < 0 ∨ imgHeight < 0 then
      .error "Width and height must be >= 0"
    else
      -- draw.text((padding, padding), ascii_text, font=font, fill=fg_color)
      match env.getrgb fgColor with
      | none => .error ("unknown color specifier: " ++ fgColor)
      | some fg =>
        let img : RasterImage :=
          { width := imgWidth.toNat, height := imgHeight.toNat,
            pix := fun p => if env.coverage font text (padding, padding) p then fg else bg }
        match env.save img outputPath with
        | .error e => .error e
        | .ok _ => .ok img

/-- `ascii_to_image` (lines 316–377).  `spacing` and `antialias` are
accepted exactly as in the source signature (line 319–320); the body never
reads them. -/
def ascii_to_image (env : RasterEnv) (asciiText : List Char) (outputPath : String)
    (fontName : String) (fontSize : Int) (bgColor fgColor : String)
    (padding : Int) (spacing : Int) (antialias : Bool) (wrapWidth : Int) :
    Except String RasterImage :=
  let text := wrapStep wrapWidth asciiText
  renderWith env (fontOf env fontName fontSize) text outputPath bgColor fgColor padding

/-! ## Lemmas: whitespace splitting -/

theorem inter_nil : List.intercalate [' '] ([] : List (List Char)) = [] := by
  simp [List.intercalate, List.intersperse]

theorem inter_one (w : List Char) : List.intercalate [' '] [w] = w := by
  simp [List.intercalate, List.intersperse]

theorem inter_cons (w v : List Char) (g : List (List Char)) :
    List.intercalate [' '] (w :: v :: g) = w ++ ' ' :: List.intercalate [' '] (v :: g) := by
  simp [List.intercalate, List.intersperse]

theorem reverse_isEmpty_false (w : List Char) (h : w ≠ []) :
    (w.reverse).isEmpty = false := by
  simp [List.isEmpty_iff, h]

theorem splitWsAux_nil (cur : List Char) :
    splitWsAux [] cur = if cur.isEmpty then [] else [cur.reverse] := rfl

theorem splitWsAux_ws (c : Char) (cs cur : List Char) (hc : isPyWs c = true) :
    splitWsAux (c :: cs) cur =
      (if cur.isEmpty then [] else [cur.reverse]) ++ splitWsAux cs [] := by
  simp only [splitWsAux, hc, if_true]
  by_cases h : cur.isEmpty <;> simp [h]

theorem splitWsAux_nonws (c : Char) (cs cur : List Char) (hc : isPyWs c = false) :
    splitWsAux (c :: cs) cur = splitWsAux cs (c :: cur) := by
  simp [splitWsAux, hc]

/-- Every word produced by `str.split()` is nonempty and whitespace-free. -/
theorem splitWsAux_sound (l : List Char) :
    ∀ cur, (∀ c ∈ cur, isPyWs c = false) →
      ∀ u ∈ splitWsAux l cur, u ≠ [] ∧ ∀ c ∈ u, isPyWs c = false := by
  induction l with
  | nil =>
    intro cur hcur u hu
    rw [splitWsAux_nil] at hu
    by_cases h : cur.isEmpty
    · simp [h] at hu
    · simp only [h, if_neg, Bool.false_eq_true, if_false, List.mem_singleton] at hu
      subst hu
      refine ⟨?_, ?_⟩
      · simp only [ne_eq, List.reverse_eq_nil_iff]
        exact fun h' => by simp [h'] at h
      · intro c hc; exact hcur c (List.mem_reverse.mp hc)
  | cons c cs ih =>
    intro cur hcur u hu
    by_cases hc : isPyWs c
    · rw [splitWsAux_ws c cs cur hc] at hu
      rcases List.mem_append.mp hu with h | h
      · by_cases hce : cur.isEmpty
        · simp [hce] at h
        · simp only [hce, Bool.false_eq_true, if_false, List.mem_singleton] at h
          subst h
          refine ⟨?_, ?_⟩
          · simp only [ne_eq, List.reverse_eq_nil_iff]
            exact fun h' => by simp [h'] at hce
          · intro x hx; exact hcur x (List.mem_reverse.mp hx)
      · exact ih [] (by simp) u h
    · rw [splitWsAux_nonws c cs cur (by simpa using hc)] at hu
      refine ih (c :: cur) ?_ u hu
      intro x hx
      rcases List.mem_cons.mp hx with h | h
      · subst h; simpa using hc
      · exact hcur x h

theorem splitWs_sound (l : List Char) :
    ∀ u ∈ splitWs l, u ≠ [] ∧ ∀ c ∈ u, isPyWs c = false :=
  splitWsAux_sound l [] (by simp)

/-- Reading a whitespace-free block just extends the current word. -/
theorem splitWsAux_word (w : List Char) (hw : ∀ c ∈ w, isPyWs c = false) :
    ∀ (rest cur : List Char),
      splitWsAux (w ++ rest) cur = splitWsAux rest (w.reverse ++ cur) := by
  induction w with
  | nil => intro rest cur; simp
  | cons c w ih =>
    intro rest cur
    have hc : isPyWs c = false := hw c (by simp)
    have hw' : ∀ x ∈ w, isPyWs x = false := fun x hx => hw x (by simp [hx])
    rw [List.cons_append, splitWsAux_nonws c (w ++ rest) cur hc, ih hw' rest (c :: cur)]
    simp

/-- `str.split()` inverts joining nonempty whitespace-free words with
single spaces. -/
theorem splitWs_intercalate (g : List (List Char))
    (hg : ∀ u ∈ g, u ≠ [] ∧ ∀ c ∈ u, isPyWs c = false) :
    splitWs (List.intercalate [' '] g) = g := by
  induction g with
  | nil => simp [splitWs, List.intercalate, splitWsAux]
  | cons w g ih =>
    have hw := hg w (by simp)
    have hg' : ∀ u ∈ g, u ≠ [] ∧ ∀ c ∈ u, isPyWs c = false :=
      fun u hu => hg u (by simp [hu])
    cases g with
    | nil =>
      show splitWsAux (List.intercalate [' '] [w]) [] = [w]
      rw [inter_one]
      rw [show splitWsAux w [] = splitWsAux (w ++ []) [] by rw [List.append_nil],
        splitWsAux_word w hw.2 [] []]
      rw [splitWsAux_nil]
      simp [reverse_isEmpty_false w hw.1]
    | cons v g' =>
      show splitWsAux (List.intercalate [' '] (w :: v :: g')) [] = w :: v :: g'
      rw [inter_cons, splitWsAux_word w hw.2 (' ' :: List.intercalate [' '] (v :: g')) []]
      rw [splitWsAux_ws ' ' _ _ (by decide)]
      rw [show (w.reverse ++ ([] : List Char)).isEmpty = false by
        simpa using reverse_isEmpty_false w hw.1]
      simp only [Bool.false_eq_true, if_false, List.append_nil, List.reverse_reverse]
      exact congrArg (w :: ·) (ih hg')

/-! ## Lemmas: `rstrip` and the `current_line` accumulator -/

/-- `rstrip` is the identity on a list whose last block is nonempty and
whitespace-free. -/
theorem rstrip_append_word (x w : List Char) (hne : w ≠ [])
    (hfree : ∀ c ∈ w, isPyWs c = false) : rstrip (x ++ w) = x ++ w := by
  unfold rstrip
  cases hrev : w.reverse with
  | nil => exact absurd (by simpa using hrev) hne
  | cons c t =>
    have hc : isPyWs c = false := by
      refine hfree c ?_
      have : c ∈ w.reverse := by rw [hrev]; simp
      exact List.mem_reverse.mp this
    rw [List.reverse_append, hrev, List.cons_append, List.dropWhile_cons, hc]
    simp only [Bool.false_eq_true, if_false, List.reverse_cons, List.reverse_append,
      List.reverse_reverse, List.append_assoc]
    have hw : t.reverse ++ [c] = w := by
      simpa using congrArg List.reverse hrev.symm
    rw [hw]

theorem rstrip_append_space (x : List Char) : rstrip (x ++ [' ']) = rstrip x := by
  unfold rstrip
  rw [List.reverse_append]
  simp [List.dropWhile_cons, isPyWs]

theorem inter_append_last (g : List (List Char)) (w : List Char) (hne : g ≠ []) :
    List.intercalate [' '] (g ++ [w]) = List.intercalate [' '] g ++ ' ' :: w := by
  induction g with
  | nil => exact absurd rfl hne
  | cons v g ih =>
    cases g with
    | nil =>
      show List.intercalate [' '] [v, w] = List.intercalate [' '] [v] ++ ' ' :: w
      rw [inter_one, inter_cons, inter_one]
    | cons u g' =>
      have ih' : List.intercalate [' '] (u :: (g' ++ [w]))
          = List.intercalate [' '] (u :: g') ++ ' ' :: w := by
        simpa using ih (by simp)
      rw [List.cons_append, List.cons_append, inter_cons, ih', inter_cons]
      simp

theorem rstrip_inter (g : List (List Char)) (hne : g ≠ [])
    (hg : ∀ u ∈ g, u ≠ [] ∧ ∀ c ∈ u, isPyWs c = false) :
    rstrip (List.intercalate [' '] g) = List.intercalate [' '] g := by
  rcases List.eq_nil_or_concat g with h | ⟨g', w, h⟩
  · exact absurd h hne
  · rw [List.concat_eq_append] at h
    subst h
    have hw := hg w (by simp)
    cases g' with
    | nil =>
      rw [List.nil_append, inter_one]
      simpa using rstrip_append_word [] w hw.1 hw.2
    | cons v g'' =>
      rw [inter_append_last _ _ (by simp)]
      rw [show List.intercalate [' '] (v :: g'') ++ ' ' :: w
            = (List.intercalate [' '] (v :: g'') ++ [' ']) ++ w by simp]
      exact rstrip_append_word _ w hw.1 hw.2

theorem flatCur_nil : flatCur [] = [] := rfl

theorem flatCur_one (w : List Char) : flatCur [w] = w ++ [' '] := by
  simp [flatCur]

theorem flatCur_concat (g : List (List Char)) (w : List Char) :
    flatCur (g ++ [w]) = flatCur g ++ w ++ [' '] := by
  simp [flatCur]

theorem flatCur_eq (g : List (List Char)) (hne : g ≠ []) :
    flatCur g = List.intercalate [' '] g ++ [' '] := by
  induction g with
  | nil => exact absurd rfl hne
  | cons v g ih =>
    cases g with
    | nil => simp [flatCur_one, inter_one]
    | cons u g' =>
      have : flatCur (v :: u :: g') = v ++ [' '] ++ flatCur (u :: g') := by
        simp [flatCur]
      rw [this, ih (by simp), inter_cons]
      simp

theorem flatCur_isEmpty_iff (g : List (List Char)) :
    (flatCur g).isEmpty = true ↔ g = [] := by
  cases g with
  | nil => simp [flatCur_nil]
  | cons w g' => simp [flatCur, List.isEmpty_iff]

/-- The flushed line `current_line.rstrip()` is the single-space join of the
packed words. -/
theorem rstrip_flatCur (g : List (List Char)) (hne : g ≠ [])
    (hg : ∀ u ∈ g, u ≠ [] ∧ ∀ c ∈ u, isPyWs c = false) :
    rstrip (flatCur g) = List.intercalate [' '] g := by
  rw [flatCur_eq g hne, rstrip_append_space, rstrip_inter g hne hg]

theorem flatCur_length (g : List (List Char)) (hne : g ≠ []) :
    (flatCur g).length = (List.intercalate [' '] g).length + 1 := by
  rw [flatCur_eq g hne]; simp

/-! ## Lemmas: the greedy packing loop -/

theorem packLoop_nil_eq (width : Nat) (cur : List Char) :
    packLoop width [] cur = if cur.isEmpty then [] else [rstrip cur] := rfl

theorem packLoop_cons_eq (width : Nat) (w : List Char) (ws : List (List Char))
    (cur : List Char) :
    packLoop width (w :: ws) cur =
      if (cur ++ w).length ≤ width then packLoop width ws (cur ++ w ++ [' '])
      else (if cur.isEmpty then [] else [rstrip cur]) ++ packLoop width ws (w ++ [' ']) :=
  rfl

theorem flatCur_isEmpty_false (g : List (List Char)) (hge : g ≠ []) :
    (flatCur g).isEmpty = false := by
  rcases Bool.eq_false_or_eq_true (flatCur g).isEmpty with h | h
  · exact absurd ((flatCur_isEmpty_iff g).mp h) hge
  · exact h

/-- What holds of a line flushed from a nonempty accumulator satisfying the
loop invariant: it is a single-space join of words, and it only exceeds the
width if it is one single word. -/
theorem emit_spec (width : Nat) (W : List (List Char)) (g : List (List Char))
    (hge : g ≠ []) (hg : ∀ u ∈ g, u ∈ W)
    (hinv : g = [] ∨ (∃ u, g = [u]) ∨ (List.intercalate [' '] g).length ≤ width) :
    (∃ gout, gout ≠ [] ∧ (∀ u ∈ gout, u ∈ W) ∧
      List.intercalate [' '] g = List.intercalate [' '] gout) ∧
    ((List.intercalate [' '] g).length ≤ width ∨
      (List.intercalate [' '] g ∈ W ∧ width < (List.intercalate [' '] g).length)) := by
  refine ⟨⟨g, hge, hg, rfl⟩, ?_⟩
  rcases le_or_lt (List.intercalate [' '] g).length width with h | h
  · exact Or.inl h
  · rcases hinv with h0 | ⟨u, hu⟩ | hlen
    · exact absurd h0 hge
    · subst hu
      rw [inter_one] at h ⊢
      exact Or.inr ⟨hg u (by simp), h⟩
    · exact Or.inl hlen

/-- Main invariant of the `for word in words` loop.  `W` is the ambient set
of words of the original line; `g` is the decomposition of `current_line`
into already-packed words; the last hypothesis is the loop invariant
(`current_line` is empty, holds a single—possibly overlong—word, or its
flushed form fits in `width`). -/
theorem packLoop_spec (width : Nat) (W : List (List Char))
    (hW : ∀ u ∈ W, u ≠ [] ∧ ∀ c ∈ u, isPyWs c = false) :
    ∀ ws g : List (List Char),
      (∀ u ∈ ws, u ∈ W) → (∀ u ∈ g, u ∈ W) →
      (g = [] ∨ (∃ u, g = [u]) ∨ (List.intercalate [' '] g).length ≤ width) →
      (packLoop width ws (flatCur g)).flatMap splitWs = g ++ ws ∧
      ∀ out ∈ packLoop width ws (flatCur g),
        (∃ gout, gout ≠ [] ∧ (∀ u ∈ gout, u ∈ W) ∧
          out = List.intercalate [' '] gout) ∧
        (out.length ≤ width ∨ (out ∈ W ∧ width < out.length)) := by
  intro ws
  induction ws with
  | nil =>
    intro g hws hg hinv
    rw [packLoop_nil_eq]
    by_cases hge : g = []
    · subst hge; simp [flatCur_nil]
    · have hgW : ∀ u ∈ g, u ≠ [] ∧ ∀ c ∈ u, isPyWs c = false :=
        fun u hu => hW u (hg u hu)
      rw [flatCur_isEmpty_false g hge]
      simp only [Bool.false_eq_true, if_false]
      rw [rstrip_flatCur g hge hgW]
      obtain ⟨hform, hlen⟩ := emit_spec width W g hge hg hinv
      refine ⟨by simp [splitWs_intercalate g hgW], ?_⟩
      intro out hout
      rw [List.mem_singleton] at hout
      subst hout
      exact ⟨hform, hlen⟩
  | cons w ws ih =>
    intro g hws hg hinv
    rw [packLoop_cons_eq]
    have hwW : w ∈ W := hws w (by simp)
    have hwsW : ∀ u ∈ ws, u ∈ W := fun u hu => hws u (by simp [hu])
    by_cases hcond : (flatCur g ++ w).length ≤ width
    · rw [if_pos hcond, show flatCur g ++ w ++ [' '] = flatCur (g ++ [w]) from
        (flatCur_concat g w).symm]
      have hg' : ∀ u ∈ g ++ [w], u ∈ W := by
        intro u hu
        rcases List.mem_append.mp hu with h | h
        · exact hg u h
        · rw [List.mem_singleton] at h; subst h; exact hwW
      have hinv' : g ++ [w] = [] ∨ (∃ u, g ++ [w] = [u]) ∨
          (List.intercalate [' '] (g ++ [w])).length ≤ width := by
        by_cases hge : g = []
        · subst hge; exact Or.inr (Or.inl ⟨w, rfl⟩)
        · refine Or.inr (Or.inr ?_)
          have hc2 : (flatCur g).length + w.length ≤ width := by simpa using hcond
          have hfl := flatCur_length g hge
          rw [inter_append_last g w hge]
          simp only [List.length_append, List.length_cons]
          omega
      obtain ⟨h1, h2⟩ := ih (g ++ [w]) hwsW hg' hinv'
      exact ⟨by rw [h1]; simp, h2⟩
    · rw [if_neg hcond, show w ++ [' '] = flatCur [w] from (flatCur_one w).symm]
      have hsingle : ∀ u ∈ [w], u ∈ W := by
        intro u hu; rw [List.mem_singleton] at hu; subst hu; exact hwW
      obtain ⟨h1, h2⟩ := ih [w] hwsW hsingle (Or.inr (Or.inl ⟨w, rfl⟩))
      by_cases hge : g = []
      · subst hge
        refine ⟨?_, ?_⟩
        · simpa [flatCur_nil] using h1
        · intro out hout
          refine h2 out ?_
          simpa [flatCur_nil] using hout
      · have hgW : ∀ u ∈ g, u ≠ [] ∧ ∀ c ∈ u, isPyWs c = false :=
          fun u hu => hW u (hg u hu)
        rw [flatCur_isEmpty_false g hge]
        simp only [Bool.false_eq_true, if_false]
        rw [rstrip_flatCur g hge hgW]
        obtain ⟨hform, hlen⟩ := emit_spec width W g hge hg hinv
        constructor
        · rw [List.flatMap_append, h1]
          simp [splitWs_intercalate g hgW]
        · intro out hout
          rcases List.mem_append.mp hout with h | h
          · rw [List.mem_singleton] at h
            subst h
            exact ⟨hform, hlen⟩
          · exact h2 out h

/-! ## Lemmas: per-line wrapping -/

theorem wrapLine_spec (width : Nat) (line : List Char) :
    (wrapLine width line).flatMap splitWs = splitWs line ∧
    ∀ out ∈ wrapLine width line,
      out.length ≤ width ∨ (out ∈ splitWs line ∧ width < out.length) := by
  unfold wrapLine
  by_cases h : line.length ≤ width
  · rw [if_pos h]
    refine ⟨by simp, ?_⟩
    intro out hout
    rw [List.mem_singleton] at hout
    subst hout
    exact Or.inl h
  · rw [if_neg h]
    obtain ⟨h1, h2⟩ := packLoop_spec width (splitWs line) (splitWs_sound line)
      (splitWs line) [] (fun u hu => hu) (by simp) (Or.inl rfl)
    rw [flatCur_nil] at h1 h2
    exact ⟨by simpa using h1, fun out hout => (h2 out hout).2⟩

theorem wrapLine_form (width : Nat) (line : List Char) (out : List Char)
    (hout : out ∈ wrapLine width line) (h : ¬ line.length ≤ width) :
    out = List.intercalate [' '] (splitWs out) := by
  rw [wrapLine, if_neg h] at hout
  obtain ⟨h1, h2⟩ := packLoop_spec width (splitWs line) (splitWs_sound line)
    (splitWs line) [] (fun u hu => hu) (by simp) (Or.inl rfl)
  rw [flatCur_nil] at h2
  obtain ⟨⟨gout, hne, hmem, hform⟩, -⟩ := h2 out hout
  have hgout : ∀ u ∈ gout, u ≠ [] ∧ ∀ c ∈ u, isPyWs c = false :=
    fun u hu => splitWs_sound line u (hmem u hu)
  rw [hform, splitWs_intercalate gout hgout]

/-! ## Claims C3, C5, C10: the wrap engine -/

/-- C3: for every input text and wrap width > 0, the wrap step never splits
a whitespace-delimited word across output lines — the words of the wrapped
output are exactly the words of the input, in order — and every output line
either has length ≤ the width or is one single word of the input, emitted
alone and unshortened, whose own length exceeds the width. -/
theorem claim_C3_wrap_never_splits_words (width : Nat) (hw : 0 < width)
    (text : List Char) :
    (wrapLinesOf width text).flatMap splitWs = (splitLines text).flatMap splitWs ∧
    ∀ out ∈ wrapLinesOf width text,
      out.length ≤ width ∨
      ∃ line ∈ splitLines text, out ∈ splitWs line ∧ width < out.length := by
  constructor
  · rw [wrapLinesOf, List.flatMap_assoc]
    exact List.flatMap_congr fun line _ => (wrapLine_spec width line).1
  · intro out hout
    rw [wrapLinesOf, List.mem_flatMap] at hout
    obtain ⟨line, hl, ho⟩ := hout
    rcases (wrapLine_spec width line).2 out ho with h | ⟨hm, hlen⟩
    · exact Or.inl h
    · exact Or.inr ⟨line, hl, hm, hlen⟩

theorem claim_C3_witness :
    0 < 3 ∧
    ((wrapLinesOf 3 "hi world".data).flatMap splitWs
        = (splitLines "hi world".data).flatMap splitWs ∧
      ∀ out ∈ wrapLinesOf 3 "hi world".data,
        out.length ≤ 3 ∨
        ∃ line ∈ splitLines "hi world".data, out ∈ splitWs line ∧ 3 < out.length) :=
  ⟨by decide, claim_C3_wrap_never_splits_words 3 (by decide) "hi world".data⟩

/-- C5: the wrap step is the identity both for every text when the wrap
width is ≤ 0 and for every text all of whose lines already fit when the
width is positive. -/
theorem claim_C5_wrap_identity (w : Int) (text : List Char)
    (h : w ≤ 0 ∨ ∀ line ∈ splitLines text, (line.length : Int) ≤ w) :
    wrapStep w text = text := by
  by_cases hw : w > 0
  · rcases h with h | h
    · omega
    · rw [wrapStep, if_pos hw, wrapLinesOf]
      have hall : ∀ line ∈ splitLines text, wrapLine w.toNat line = [line] := by
        intro line hl
        rw [wrapLine, if_pos (by have := h line hl; omega)]
      have hid : (splitLines text).flatMap (wrapLine w.toNat) = splitLines text := by
        rw [List.flatMap_congr (g := fun l => [l]) hall]
        simp
      rw [hid]
      show List.intercalate ['\n'] (text.splitOn '\n') = text
      exact List.intercalate_splitOn text '\n'
  · rw [wrapStep, if_neg hw]

theorem claim_C5_witness :
    ((5 : Int) ≤ 0 ∨ ∀ line ∈ splitLines "ab\ncd".data, (line.length : Int) ≤ 5) ∧
    wrapStep 5 "ab\ncd".data = "ab\ncd".data :=
  ⟨Or.inr (by decide), claim_C5_wrap_identity 5 "ab\ncd".data (Or.inr (by decide))⟩

/-- C10: a line that fits in the wrap width passes through byte-for-byte;
a longer line is reassembled as its whitespace-split words joined by single
spaces — every output line equals the single-space join of its own words, so
leading/trailing whitespace and interior whitespace runs of the original
line are collapsed — and a longer line consisting only of whitespace is
dropped entirely. -/
theorem claim_C10_wrap_whitespace_collapse (width : Nat) (hw : 0 < width)
    (line : List Char) :
    (line.length ≤ width → wrapLine width line = [line]) ∧
    (width < line.length →
      ∀ out ∈ wrapLine width line, out = List.intercalate [' '] (splitWs out)) ∧
    (width < line.length → splitWs line = [] → wrapLine width line = []) := by
  refine ⟨fun h => by rw [wrapLine, if_pos h], ?_, ?_⟩
  · intro h out hout
    exact wrapLine_form width line out hout (by omega)
  · intro h hempty
    rw [wrapLine, if_neg (by omega), hempty, packLoop_nil_eq]
    simp [flatCur_nil]

theorem claim_C10_witness :
    0 < 3 ∧
    (("a  b".data.length ≤ 3 → wrapLine 3 "a  b".data = ["a  b".data]) ∧
      (3 < "a  b".data.length →
        ∀ out ∈ wrapLine 3 "a  b".data,
          out = List.intercalate [' '] (splitWs out)) ∧
      (3 < "a  b".data.length → splitWs "a  b".data = [] →
        wrapLine 3 "a  b".data = [])) :=
  ⟨by decide, claim_C10_wrap_whitespace_collapse 3 (by decide) "a  b".data⟩

/-! ## Lemmas: quantizer row structure -/

theorem asciiFromPixels_nil (width i : Nat) : asciiFromPixels width i [] = [] := rfl

theorem asciiFromPixels_cons (width i p : Nat) (ps : List Nat) :
    asciiFromPixels width i (p :: ps) =
      (if (i + 1) % width = 0 then [rampChar p, '\n'] else [rampChar p])
        ++ asciiFromPixels width (i + 1) ps := rfl

theorem rampChar_mem_or (p : Nat) : rampChar p ∈ asciiChars ∨ rampChar p = ' ' := by
  unfold rampChar
  rw [List.getD_eq_getElem?_getD]
  cases h : asciiChars[charIndex p]? with
  | none => simp
  | some c => exact Or.inl (by simpa [h] using List.getElem?_mem h)

theorem rampChar_ne_newline (p : Nat) : rampChar p ≠ '\n' := by
  rcases rampChar_mem_or p with h | h
  · intro hc
    rw [hc] at h
    exact absurd h (by decide)
  · rw [h]; decide

/-- One row of the pixel loop: starting `width - r` pixels before a row
boundary, the loop emits one character per pixel and then a newline. -/
theorem splitLines_row (x y : List Char) (hx : ∀ c ∈ x, c ≠ '\n') :
    splitLines (x ++ '\n' :: y) = x :: splitLines y := by
  show List.splitOnP (· == '\n') (x ++ '\n' :: y) = x :: List.splitOnP (· == '\n') y
  exact List.splitOnP_first (· == '\n') x (fun c hc => by simpa using hx c hc)
    '\n' (by simp) y

theorem asciiFromPixels_row (width : Nat) (hw : 0 < width) :
    ∀ (ps : List Nat) (r j : Nat) (rest : List Nat), r < width →
      ps.length = width - r →
      asciiFromPixels width (j * width + r) (ps ++ rest)
        = ps.map rampChar ++ '\n' :: asciiFromPixels width ((j + 1) * width) rest := by
  intro ps
  induction ps with
  | nil =>
    intro r j rest hr hlen
    simp only [List.length_nil] at hlen
    omega
  | cons p ps ih =>
    intro r j rest hr hlen
    simp only [List.length_cons] at hlen
    rw [List.cons_append, asciiFromPixels_cons]
    by_cases hlast : r + 1 = width
    · have hps : ps = [] := List.eq_nil_of_length_eq_zero (by omega)
      subst hps
      have hidx : j * width + r + 1 = (j + 1) * width := by
        have : (j + 1) * width = j * width + width := by ring
        omega
      rw [hidx, Nat.mul_mod_left, if_pos rfl]
      simp
    · have hmod : (j * width + r + 1) % width = r + 1 := by
        have h1 : (width * j + (r + 1)) % width = (r + 1) % width := Nat.mul_add_mod _ _ _
        rw [Nat.mod_eq_of_lt (show r + 1 < width by omega)] at h1
        have h2 : j * width + r + 1 = width * j + (r + 1) := by ring
        rw [h2, h1]
      rw [if_neg (by rw [hmod]; omega)]
      have := ih (r + 1) j rest (by omega) (by omega)
      rw [show j * width + r + 1 = j * width + (r + 1) by ring, this]
      simp

/-- The whole pixel loop on `k` complete rows: the emitted text splits into
`k` rows of exactly `width` characters, each terminated by `'\n'` (so the
final `split('\n')` piece is empty). -/
theorem asciiFromPixels_doc (width : Nat) (hw : 0 < width) :
    ∀ (k j : Nat) (ps : List Nat), ps.length = k * width →
      ∃ rows, splitLines (asciiFromPixels width (j * width) ps) = rows ++ [[]] ∧
        rows.length = k ∧ ∀ row ∈ rows, row.length = width := by
  intro k
  induction k with
  | zero =>
    intro j ps hlen
    have : ps = [] := List.eq_nil_of_length_eq_zero (by omega)
    subst this
    exact ⟨[], by simp [asciiFromPixels_nil, splitLines], rfl, by simp⟩
  | succ k ih =>
    intro j ps hlen
    have hwle : width ≤ ps.length := by
      rw [hlen]; calc width = 1 * width := (one_mul width).symm
        _ ≤ (k + 1) * width := Nat.mul_le_mul_right width (by omega)
    have hsplit : ps = ps.take width ++ ps.drop width := (List.take_append_drop _ _).symm
    have htake : (ps.take width).length = width := by
      rw [List.length_take]; omega
    have hdrop : (ps.drop width).length = k * width := by
      rw [List.length_drop, hlen]
      have : (k + 1) * width = k * width + width := by ring
      omega
    obtain ⟨rows, hrows, hlenr, hall⟩ := ih (j + 1) (ps.drop width) hdrop
    refine ⟨(ps.take width).map rampChar :: rows, ?_, by simp [hlenr], ?_⟩
    · have hrow0 : asciiFromPixels width (j * width) ps
          = (ps.take width).map rampChar ++ '\n'
            :: asciiFromPixels width ((j + 1) * width) (ps.drop width) := by
        conv_lhs => rw [hsplit]
        have h := asciiFromPixels_row width hw (ps.take width) 0 j (ps.drop width)
          hw (by omega)
        simpa using h
      have hnn : ∀ c ∈ (ps.take width).map rampChar, c ≠ '\n' := by
        intro c hc
        obtain ⟨p, _, hp⟩ := List.mem_map.mp hc
        simpa [hp.symm] using rampChar_ne_newline p
      rw [hrow0, splitLines_row _ _ hnn, hrows]
      simp
    · intro row hrow
      rcases List.mem_cons.mp hrow with h | h
      · rw [h, List.length_map, htake]
      · exact hall row h

/-! ## Claims C1, C2, C4, C8: the quantizer -/

/-- C1 counterexample: the specification's scenario asserts that quantizing
a uniform 10×10 image at width 10 yields `round(10 * 1 * 0.55) = 6` lines,
but the code computes the height with `int(...)` (truncation), so the
output has 5 lines, not 6. -/
theorem claim_C1_counterexample :
    pythonReturn (image_to_ascii (resampleUniform 0) (.ok ⟨10, 10⟩) 10)
      = "@@@@@@@@@@\n@@@@@@@@@@\n@@@@@@@@@@\n@@@@@@@@@@\n@@@@@@@@@@\n" ∧
    (docRows (pythonReturn (image_to_ascii (resampleUniform 0)
      (.ok ⟨10, 10⟩) 10))).length ≠ 6 := by
  constructor <;> decide

/-- C1 (amended): for every decoded image with positive width and every
character width ≥ 1 whose computed height `int(width * (h/w) * 0.55)` is
≥ 1, the output consists of exactly that many lines — truncation, not
`round` — and every line has length exactly `width` (`hres` is Pillow's
contract that `resize` yields exactly `width × height` pixels). -/
theorem claim_C1_amended (resample : GrayImage → Nat → Nat → List Nat)
    (img : GrayImage) (width : Int) (hw : 1 ≤ width) (himg : 0 < img.width)
    (hh : 1 ≤ quantHeight img width)
    (hres : (resample img width.toNat (quantHeight img width).toNat).length
      = (quantHeight img width).toNat * width.toNat) :
    ∃ s, image_to_ascii resample (.ok img) width = .ok s ∧
      (docRows s).length = (quantHeight img width).toNat ∧
      ∀ row ∈ docRows s, row.length = width.toNat := by
  have hwpos : 0 < width.toNat := by omega
  obtain ⟨rows, hrows, hlenr, hall⟩ := asciiFromPixels_doc width.toNat hwpos
    (quantHeight img width).toNat 0
    (resample img width.toNat (quantHeight img width).toNat)
    (by rw [hres])
  rw [zero_mul] at hrows
  refine ⟨String.mk (asciiFromPixels width.toNat 0
    (resample img width.toNat (quantHeight img width).toNat)), ?_, ?_, ?_⟩
  · simp only [image_to_ascii]
    rw [if_neg (by omega), if_neg (by omega)]
  · show ((splitLines (asciiFromPixels width.toNat 0 _)).dropLast).length = _
    rw [hrows, List.dropLast_concat, hlenr]
  · intro row hrow
    show row.length = width.toNat
    refine hall row ?_
    have : docRows (String.mk (asciiFromPixels width.toNat 0
        (resample img width.toNat (quantHeight img width).toNat))) = rows := by
      show (splitLines (asciiFromPixels width.toNat 0 _)).dropLast = rows
      rw [hrows, List.dropLast_concat]
    rwa [this] at hrow

theorem claim_C1_witness :
    1 ≤ (10 : Int) ∧ 0 < (GrayImage.mk 10 10).width ∧
    1 ≤ quantHeight ⟨10, 10⟩ 10 ∧
    (resampleUniform 0 ⟨10, 10⟩ (10 : Int).toNat
        (quantHeight ⟨10, 10⟩ 10).toNat).length
      = (quantHeight ⟨10, 10⟩ 10).toNat * (10 : Int).toNat ∧
    ∃ s, image_to_ascii (resampleUniform 0) (.ok ⟨10, 10⟩) 10 = .ok s ∧
      (docRows s).length = (quantHeight ⟨10, 10⟩ 10).toNat ∧
      ∀ row ∈ docRows s, row.length = (10 : Int).toNat :=
  ⟨by decide, by decide, by decide, by decide,
    claim_C1_amended (resampleUniform 0) ⟨10, 10⟩ 10
      (by decide) (by decide) (by decide) (by decide)⟩

/-- C2: for every decoded image and every width ≤ 0 the quantizer fails
(either `ZeroDivisionError` on a zero-width image or Pillow's size
`ValueError` from `resize`, the code's realization of the specification's
`InvalidConfig`), is caught at once, and the function returns the empty
string — no partial ASCII document. -/
theorem claim_C2_nonpositive_width_fails (resample : GrayImage → Nat → Nat → List Nat)
    (img : GrayImage) (width : Int) (hw : width ≤ 0) :
    (∃ e, image_to_ascii resample (.ok img) width = .error e) ∧
    pythonReturn (image_to_ascii resample (.ok img) width) = "" := by
  simp only [image_to_ascii]
  by_cases h0 : img.width = 0
  · rw [if_pos h0]
    exact ⟨⟨_, rfl⟩, rfl⟩
  · rw [if_neg h0, if_pos (Or.inl (by omega))]
    exact ⟨⟨_, rfl⟩, rfl⟩

theorem claim_C2_witness :
    (0 : Int) ≤ 0 ∧
    ((∃ e, image_to_ascii (resampleUniform 0) (.ok ⟨10, 10⟩) 0 = .error e) ∧
      pythonReturn (image_to_ascii (resampleUniform 0) (.ok ⟨10, 10⟩) 0) = "") :=
  ⟨by decide, claim_C2_nonpositive_width_fails (resampleUniform 0) ⟨10, 10⟩ 0 (by decide)⟩

/-- C4: for every luminance 0 ≤ l ≤ 255 the per-pixel mapping selects the
ramp character at index `floor(l / 255 * (N - 1))` clamped to `[0, N-1]`
(the clamp is vacuous on that range), with luminance 0 mapped to `'@'` and
255 to `' '`. -/
theorem claim_C4_ramp_index (l : Nat) (h : l ≤ 255) :
    rampChar l = asciiChars.getD
      (min (⌊(l : ℚ) / 255 * ((asciiChars.length : ℚ) - 1)⌋₊) (asciiChars.length - 1)) ' '
    ∧ rampChar 0 = '@' ∧ rampChar 255 = ' ' := by
  refine ⟨?_, rfl, rfl⟩
  have hlen : ((asciiChars.length : ℚ) - 1) = (9 : ℚ) := by
    norm_num [asciiChars]
  have hfloor : ⌊(l : ℚ) / 255 * 9⌋₊ = l * 9 / 255 := by
    rw [div_mul_eq_mul_div,
      show ((l : ℚ) * 9) = ((l * 9 : ℕ) : ℚ) by push_cast; ring,
      show (255 : ℚ) = ((255 : ℕ) : ℚ) by norm_num,
      Nat.floor_div_nat, Nat.floor_natCast]
  have hle : l * 9 / 255 ≤ 9 := by omega
  rw [hlen, hfloor, show asciiChars.length - 1 = 9 from rfl, min_eq_left hle]
  rfl

theorem claim_C4_witness :
    128 ≤ 255 ∧
    (rampChar 128 = asciiChars.getD
      (min (⌊(128 : ℚ) / 255 * ((asciiChars.length : ℚ) - 1)⌋₊) (asciiChars.length - 1)) ' '
    ∧ rampChar 0 = '@' ∧ rampChar 255 = ' ') :=
  ⟨by decide, claim_C4_ramp_index 128 (by decide)⟩

/-- C8: when the input cannot be decoded (`Image.open` raises), the decode
failure is the function's outcome — no retry, no partial document — and the
Python return value is the empty string. -/
theorem claim_C8_decode_error (resample : GrayImage → Nat → Nat → List Nat)
    (e : String) (width : Int) :
    image_to_ascii resample (.error e) width = .error e ∧
    pythonReturn (image_to_ascii resample (.error e) width) = "" :=
  ⟨rfl, rfl⟩

/-! ## Lemmas: the rasterizer happy path -/

/-- With resolvable colours, sane font metrics, nonnegative padding and a
successful save, `renderWith` returns the composed canvas. -/
theorem renderWith_ok (env : RasterEnv) (font : Font) (text : List Char)
    (path bgc fgc : String) (padding : Int)
    (x0 y0 x1 y1 : Int) (hbb : font.getbbox text = (x0, y0, x1, y1))
    (bg fg : Nat × Nat × Nat)
    (hbg : env.getrgb bgc = some bg) (hfg : env.getrgb fgc = some fg)
    (hx : x0 ≤ x1) (hy : y0 ≤ y1) (hp : 0 ≤ padding)
    (hsave : ∀ img, env.save img path = .ok ()) :
    renderWith env font text path bgc fgc padding
      = .ok { width := ((x1 - x0) + padding * 2).toNat,
              height := ((y1 - y0) + padding * 2).toNat,
              pix := fun p =>
                if env.coverage font text (padding, padding) p then fg else bg } := by
  simp only [renderWith, hbb, hbg, hfg]
  rw [if_neg (by omega)]
  rw [hsave]

/-- Environment used to instantiate the rasterizer theorems on concrete
inputs: font loading always misses (exercising the fallback), the default
font measures an empty bounding box, every colour resolves, nothing is
inked, saving succeeds. -/
def constEnv : RasterEnv where
  loadFont := fun _ _ => none
  defaultFont := ⟨fun _ => (0, 0, 0, 0)⟩
  getrgb := fun _ => some (255, 255, 255)
  coverage := fun _ _ _ _ => false
  save := fun _ _ => .ok ()

/-! ## Claims C6, C7, C9: the rasterizer -/

/-- C6: with resolvable colours (and sane glyph metrics, nonnegative
padding, working save), `ascii_to_image` succeeds with a canvas of size
`(measured text width + 2*padding, measured text height + 2*padding)`,
every pixel outside the inked glyphs carries the background colour, empty
input included — and the dimensions are positive whenever the padding is. -/
theorem claim_C6_canvas_dimensions (env : RasterEnv) (text : List Char)
    (path fn : String) (fs : Int) (bgc fgc : String)
    (padding spacing : Int) (aa : Bool) (wrapW : Int) (x0 y0 x1 y1 : Int)
    (hbb : (fontOf env fn fs).getbbox (wrapStep wrapW text) = (x0, y0, x1, y1))
    (bg fg : Nat × Nat × Nat)
    (hbg : env.getrgb bgc = some bg) (hfg : env.getrgb fgc = some fg)
    (hx : x0 ≤ x1) (hy : y0 ≤ y1) (hp : 0 ≤ padding)
    (hsave : ∀ img, env.save img path = .ok ()) :
    ∃ img, ascii_to_image env text path fn fs bgc fgc padding spacing aa wrapW
        = .ok img ∧
      (img.width : Int) = (x1 - x0) + padding * 2 ∧
      (img.height : Int) = (y1 - y0) + padding * 2 ∧
      (∀ p, env.coverage (fontOf env fn fs) (wrapStep wrapW text)
          (padding, padding) p = false → img.pix p = bg) ∧
      (0 < padding → 0 < img.width ∧ 0 < img.height) := by
  have h := renderWith_ok env (fontOf env fn fs) (wrapStep wrapW text) path bgc fgc
    padding x0 y0 x1 y1 hbb bg fg hbg hfg hx hy hp hsave
  refine ⟨_, h, ?_, ?_, ?_, ?_⟩
  · exact Int.toNat_of_nonneg (by omega)
  · exact Int.toNat_of_nonneg (by omega)
  · intro p hcov
    simp [hcov]
  · intro hpp
    constructor <;> simp <;> omega

theorem claim_C6_witness :
    (fontOf constEnv "Courier" 12).getbbox (wrapStep 80 []) = (0, 0, 0, 0) ∧
    constEnv.getrgb "white" = some (255, 255, 255) ∧
    constEnv.getrgb "black" = some (255, 255, 255) ∧
    (0 : Int) ≤ 0 ∧ (0 : Int) ≤ 20 ∧
    (∀ img, constEnv.save img "out.png" = .ok ()) ∧
    ∃ img, ascii_to_image constEnv [] "out.png" "Courier" 12 "white" "black"
        20 1 true 80 = .ok img ∧
      (img.width : Int) = (0 - 0) + 20 * 2 ∧
      (img.height : Int) = (0 - 0) + 20 * 2 ∧
      (∀ p, constEnv.coverage (fontOf constEnv "Courier" 12) (wrapStep 80 [])
          (20, 20) p = false → img.pix p = (255, 255, 255)) ∧
      (0 < (20 : Int) → 0 < img.width ∧ 0 < img.height) :=
  ⟨rfl, rfl, rfl, by decide, by decide, fun _ => rfl,
    claim_C6_canvas_dimensions constEnv [] "out.png" "Courier" 12 "white" "black"
      20 1 true 80 0 0 0 0 rfl (255, 255, 255) (255, 255, 255) rfl rfl
      (by decide) (by decide) (by decide) (fun _ => rfl)⟩

/-- C7: when loading the requested font fails, `ascii_to_image` continues
with the built-in default font — the run is identical to rendering with the
default font, so the failure never surfaces — and under resolvable colours,
sane default-font metrics, nonnegative padding and a working save it still
succeeds. -/
theorem claim_C7_font_fallback (env : RasterEnv) (text : List Char)
    (path fn : String) (fs : Int) (bgc fgc : String)
    (padding spacing : Int) (aa : Bool) (wrapW : Int)
    (hfail : env.loadFont fn fs = none) :
    ascii_to_image env text path fn fs bgc fgc padding spacing aa wrapW
      = renderWith env env.defaultFont (wrapStep wrapW text) path bgc fgc padding ∧
    ∀ x0 y0 x1 y1 bg fg,
      env.defaultFont.getbbox (wrapStep wrapW text) = (x0, y0, x1, y1) →
      env.getrgb bgc = some bg → env.getrgb fgc = some fg →
      x0 ≤ x1 → y0 ≤ y1 → 0 ≤ padding →
      (∀ img, env.save img path = .ok ()) →
      ∃ img, ascii_to_image env text path fn fs bgc fgc padding spacing aa wrapW
        = .ok img := by
  have hfont : fontOf env fn fs = env.defaultFont := by
    rw [fontOf, hfail]; rfl
  constructor
  · show renderWith env (fontOf env fn fs) (wrapStep wrapW text) path bgc fgc padding
      = renderWith env env.defaultFont (wrapStep wrapW text) path bgc fgc padding
    rw [hfont]
  · intro x0 y0 x1 y1 bg fg hbb hbg hfg hx hy hp hsave
    have hok := renderWith_ok env env.defaultFont (wrapStep wrapW text) path bgc fgc
      padding x0 y0 x1 y1 hbb bg fg hbg hfg hx hy hp hsave
    refine ⟨{ width := ((x1 - x0) + padding * 2).toNat,
              height := ((y1 - y0) + padding * 2).toNat,
              pix := fun p =>
                if env.coverage env.defaultFont (wrapStep wrapW text)
                  (padding, padding) p then fg else bg }, ?_⟩
    show renderWith env (fontOf env fn fs) (wrapStep wrapW text) path bgc fgc padding
      = _
    rw [hfont]
    exact hok

theorem claim_C7_witness :
    constEnv.loadFont "NoSuchFont" 12 = none ∧
    (ascii_to_image constEnv "HELLO".data "out.png" "NoSuchFont" 12 "white" "black"
        20 1 true 80
      = renderWith constEnv constEnv.defaultFont (wrapStep 80 "HELLO".data)
          "out.png" "white" "black" 20 ∧
    ∀ x0 y0 x1 y1 bg fg,
      constEnv.defaultFont.getbbox (wrapStep 80 "HELLO".data) = (x0, y0, x1, y1) →
      constEnv.getrgb "white" = some bg → constEnv.getrgb "black" = some fg →
      x0 ≤ x1 → y0 ≤ y1 → 0 ≤ (20 : Int) →
      (∀ img, constEnv.save img "out.png" = .ok ()) →
      ∃ img, ascii_to_image constEnv "HELLO".data "out.png" "NoSuchFont" 12
        "white" "black" 20 1 true 80 = .ok img) :=
  ⟨rfl, claim_C7_font_fallback constEnv "HELLO".data "out.png" "NoSuchFont" 12
    "white" "black" 20 1 true 80 rfl⟩

/-- C9: two calls to `ascii_to_image` differing only in `spacing` and
`antialias` produce identical results: the body never reads either
parameter. -/
theorem claim_C9_spacing_antialias_inert (env : RasterEnv) (text : List Char)
    (path fn : String) (fs : Int) (bgc fgc : String) (padding : Int)
    (wrapW : Int) (s1 s2 : Int) (a1 a2 : Bool) :
    ascii_to_image env text path fn fs bgc fgc padding s1 a1 wrapW
      = ascii_to_image env text path fn fs bgc fgc padding s2 a2 wrapW := rfl

end AsciiVision
